import Mathlib

/-! Shallow embedding of randomMating.py: the weighted sampler, diploid genes,
genomes, and the Species population with its random-mating step.  Randomness is
made explicit: each call of random.random() becomes a rational draw r with
0 ≤ r < 1 supplied as an argument, and each random.choice over the slots of a
gene becomes a slot index supplied as an argument. -/

namespace RandomMating

/-- Binary search loop of Python bisect.bisect_right as used on line 20 of
randomMating.py: while lo < hi, take mid = (lo + hi) / 2 and move hi down to
mid when x < a[mid], else move lo up to mid + 1; the result is the insertion
point for x in a, to the right of entries equal to x. -/
def bisectGo (a : List ℚ) (x : ℚ) (lo hi : ℕ) : ℕ :=
  if h : lo < hi then
    if x < a.getD ((lo + hi) / 2) 0 then bisectGo a x lo ((lo + hi) / 2)
    else bisectGo a x ((lo + hi) / 2 + 1) hi
  else lo
termination_by hi - lo
decreasing_by
  · omega
  · omega

/-- Python bisect.bisect(cum_weights, x) with the default lo = 0, hi = len. -/
def bisect (a : List ℚ) (x : ℚ) : ℕ :=
  bisectGo a x 0 a.length

/-- Invariant-based specification of the bisect_right binary search on a list
that is nondecreasing on its indices: the result r keeps all entries strictly
before r at most x and all entries from r on strictly above x. -/
theorem bisectGo_spec (a : List ℚ) (x : ℚ)
    (hsort : ∀ i j, i ≤ j → j < a.length → a.getD i 0 ≤ a.getD j 0) :
    ∀ n lo hi, hi - lo ≤ n → lo ≤ hi → hi ≤ a.length →
      (∀ k, k < lo → a.getD k 0 ≤ x) →
      (∀ k, hi ≤ k → k < a.length → x < a.getD k 0) →
      lo ≤ bisectGo a x lo hi ∧ bisectGo a x lo hi ≤ hi ∧
        (∀ k, k < bisectGo a x lo hi → a.getD k 0 ≤ x) ∧
        (∀ k, bisectGo a x lo hi ≤ k → k < a.length → x < a.getD k 0) := by
  intro n
  induction n with
  | zero =>
      intro lo hi hn hlh hha hlow hhigh
      rw [bisectGo, dif_neg (by omega : ¬ lo < hi)]
      exact ⟨le_refl _, by omega, hlow, fun k hk hk2 => hhigh k (by omega) hk2⟩
  | succ n ih =>
      intro lo hi hn hlh hha hlow hhigh
      rw [bisectGo]
      by_cases h1 : lo < hi
      · rw [dif_pos h1]
        have hmlt : (lo + hi) / 2 < hi := by omega
        have hmge : lo ≤ (lo + hi) / 2 := by omega
        by_cases h2 : x < a.getD ((lo + hi) / 2) 0
        · rw [if_pos h2]
          have hrec := ih lo ((lo + hi) / 2) (by omega) (by omega) (by omega)
            hlow
            (fun k hk hk2 => lt_of_lt_of_le h2 (hsort _ k hk hk2))
          exact ⟨hrec.1, le_trans hrec.2.1 (le_of_lt hmlt), hrec.2.2⟩
        · rw [if_neg h2]
          push_neg at h2
          have hrec := ih ((lo + hi) / 2 + 1) hi (by omega) (by omega) hha
            (fun k hk => le_trans (hsort k _ (by omega) (by omega)) h2)
            hhigh
          exact ⟨le_trans (by omega) hrec.1, hrec.2.1, hrec.2.2⟩
      · rw [dif_neg h1]
        exact ⟨le_refl _, by omega, hlow, fun k hk hk2 => hhigh k (by omega) hk2⟩

/-- Cumulative-sum loop of weighted_choice (lines 14-18 of randomMating.py):
running total t, appending t + w for each weight w. -/
def cumAux : ℤ → List ℤ → List ℤ
  | _, [] => []
  | t, w :: ws => (t + w) :: cumAux (t + w) ws

/-- The cum_weights list built by weighted_choice, starting from total 0. -/
def cumWeights (ws : List ℤ) : List ℤ :=
  cumAux 0 ws

theorem cumAux_length (t : ℤ) (ws : List ℤ) : (cumAux t ws).length = ws.length := by
  induction ws generalizing t with
  | nil => rfl
  | cons w ws ih => simp [cumAux, ih]

theorem cumAux_getD (t : ℤ) (ws : List ℤ) (k : ℕ) (hk : k < ws.length) :
    (cumAux t ws).getD k 0 = t + (ws.take (k + 1)).sum := by
  induction ws generalizing t k with
  | nil => simp at hk
  | cons w ws ih =>
      cases k with
      | zero => simp [cumAux]
      | succ k =>
          have hk2 : k < ws.length := by simpa using hk
          simp only [cumAux, List.getD_cons_succ, List.take_succ_cons, List.sum_cons]
          rw [ih (t + w) k hk2]
          ring

theorem cumWeights_getD (ws : List ℤ) (k : ℕ) (hk : k < ws.length) :
    (cumWeights ws).getD k 0 = (ws.take (k + 1)).sum := by
  rw [cumWeights, cumAux_getD 0 ws k hk, zero_add]

theorem cumWeights_length (ws : List ℤ) : (cumWeights ws).length = ws.length :=
  cumAux_length 0 ws

/-- Prefix sums of a list of nonnegative integers are monotone in the length of
the prefix. -/
theorem take_sum_mono {ws : List ℤ} (hw : ∀ w ∈ ws, 0 ≤ w) {i j : ℕ} (hij : i ≤ j) :
    (ws.take i).sum ≤ (ws.take j).sum := by
  obtain ⟨k, rfl⟩ := Nat.exists_eq_add_of_le hij
  rw [List.take_add, List.sum_append]
  have hnn : 0 ≤ ((ws.drop i).take k).sum := by
    apply List.sum_nonneg
    intro w hwmem
    exact hw w (List.mem_of_mem_drop (List.mem_of_mem_take hwmem))
  omega

/-- Total of the integer weights of a weighted collection of pairs
( (v1, w1), (v2, w2), ... ); in weighted_choice this is the final running
total, which equals the plain sum of the weights. -/
def totalWeight {α : Type} (l : List (α × ℤ)) : ℤ :=
  (l.map Prod.snd).sum

/-- Integer weights promoted to rationals, standing for the exact comparison
of Python ints against the float x in bisect. -/
def qcast (zs : List ℤ) : List ℚ :=
  zs.map (fun z => Int.cast z)

/-- Embedding of weighted_choice (lines 9-21 of randomMating.py).  The zip
unpacks values and weights, cum_weights is the cumulative sum, the uniform
draw random.random() is passed in as r (with 0 ≤ r < 1 assumed by callers), so
x = r * total, and the chosen index is bisect(cum_weights, x).  An index out of
range of values models the IndexError / ValueError failure paths. -/
def weightedChoice {α : Type} (l : List (α × ℤ)) (r : ℚ) : Option α :=
  let values := l.map Prod.fst
  let weights := l.map Prod.snd
  let cw : List ℚ := qcast (cumWeights weights)
  let x : ℚ := r * ((totalWeight l : ℤ) : ℚ)
  values[bisect cw x]?

theorem qcast_length (zs : List ℤ) : (qcast zs).length = zs.length := by
  unfold qcast
  exact List.length_map zs _

theorem qcast_getD (zs : List ℤ) (k : ℕ) :
    (qcast zs).getD k 0 = ((zs.getD k 0 : ℤ) : ℚ) := by
  by_cases hk : k < zs.length
  · have hk2 : k < (qcast zs).length := by rw [qcast_length]; exact hk
    rw [List.getD_eq_getElem _ _ hk2, List.getD_eq_getElem _ _ hk]
    unfold qcast
    rw [List.getElem_map]
  · push_neg at hk
    have hk2 : (qcast zs).length ≤ k := by rw [qcast_length]; exact hk
    rw [List.getD_eq_default _ _ hk2, List.getD_eq_default _ _ hk, Int.cast_zero]

/-- Behaviour of bisect over the whole of a list that is nondecreasing on its
indices. -/
theorem bisect_spec (a : List ℚ) (x : ℚ)
    (hsort : ∀ i j, i ≤ j → j < a.length → a.getD i 0 ≤ a.getD j 0) :
    bisect a x ≤ a.length ∧ (∀ k, k < bisect a x → a.getD k 0 ≤ x) ∧
      (∀ k, bisect a x ≤ k → k < a.length → x < a.getD k 0) := by
  have h := bisectGo_spec a x hsort a.length 0 a.length (by omega) (by omega) (le_refl _)
    (fun k hk => absurd hk (Nat.not_lt_zero k)) (fun k hk hk2 => absurd hk2 (by omega))
  exact ⟨h.2.1, h.2.2.1, h.2.2.2⟩

/-- The cumulative weights are nondecreasing when every weight is nonnegative. -/
theorem cum_sorted {α : Type} (l : List (α × ℤ)) (hw : ∀ p ∈ l, 0 ≤ p.2) :
    ∀ i j, i ≤ j → j < (qcast (cumWeights (l.map Prod.snd))).length →
      (qcast (cumWeights (l.map Prod.snd))).getD i 0 ≤
        (qcast (cumWeights (l.map Prod.snd))).getD j 0 := by
  intro i j hij hj
  rw [qcast_length, cumWeights_length] at hj
  have hwnn : ∀ w ∈ l.map Prod.snd, 0 ≤ w := by
    intro w hw'
    obtain ⟨p, hp, rfl⟩ := List.mem_map.mp hw'
    exact hw p hp
  rw [qcast_getD, qcast_getD, cumWeights_getD _ j hj, cumWeights_getD _ i (by omega)]
  exact_mod_cast take_sum_mono hwnn (Nat.succ_le_succ hij)

/-- Success case of weighted_choice: with nonnegative weights, a positive total,
and a uniform draw 0 ≤ r < 1, the call returns the value at the first index
whose cumulative weight strictly exceeds x = r * total; in particular that
index carries a strictly positive weight. -/
theorem weightedChoice_spec {α : Type} (l : List (α × ℤ)) (r : ℚ)
    (h0 : 0 ≤ r) (h1 : r < 1) (hw : ∀ p ∈ l, 0 ≤ p.2) (hpos : 0 < totalWeight l) :
    ∃ (i : ℕ) (hi : i < l.length),
      weightedChoice l r = some (l[i].1) ∧
      0 < l[i].2 ∧
      (∀ j, j < i →
        (((cumWeights (l.map Prod.snd)).getD j 0 : ℤ) : ℚ) ≤ r * ((totalWeight l : ℤ) : ℚ)) ∧
      r * ((totalWeight l : ℤ) : ℚ) < (((cumWeights (l.map Prod.snd)).getD i 0 : ℤ) : ℚ) := by
  have hwsl : (l.map Prod.snd).length = l.length := List.length_map l _
  have halen : (qcast (cumWeights (l.map Prod.snd))).length = l.length := by
    rw [qcast_length, cumWeights_length, hwsl]
  have hwnn : ∀ w ∈ l.map Prod.snd, 0 ≤ w := by
    intro w hw'
    obtain ⟨p, hp, rfl⟩ := List.mem_map.mp hw'
    exact hw p hp
  obtain ⟨hble, hlow, hhigh⟩ :=
    bisect_spec (qcast (cumWeights (l.map Prod.snd))) (r * ((totalWeight l : ℤ) : ℚ))
      (cum_sorted l hw)
  have hx0 : 0 ≤ r * ((totalWeight l : ℤ) : ℚ) := by
    apply mul_nonneg h0
    exact_mod_cast le_of_lt hpos
  have hxlt : r * ((totalWeight l : ℤ) : ℚ) < ((totalWeight l : ℤ) : ℚ) := by
    have h2 : r * ((totalWeight l : ℤ) : ℚ) < 1 * ((totalWeight l : ℤ) : ℚ) := by
      apply mul_lt_mul_of_pos_right h1
      exact_mod_cast hpos
    linarith
  have hlpos : 0 < l.length := by
    rcases l with _ | ⟨p, rest⟩
    · simp [totalWeight] at hpos
    · simp
  have hlast : (qcast (cumWeights (l.map Prod.snd))).getD (l.length - 1) 0 =
      ((totalWeight l : ℤ) : ℚ) := by
    have h1' : l.length - 1 < (l.map Prod.snd).length := by omega
    rw [qcast_getD, cumWeights_getD _ _ h1']
    have ht : (l.map Prod.snd).take (l.length - 1 + 1) = l.map Prod.snd :=
      List.take_of_length_le (by omega)
    rw [ht]
    rfl
  have hblt : bisect (qcast (cumWeights (l.map Prod.snd)))
      (r * ((totalWeight l : ℤ) : ℚ)) < l.length := by
    rcases lt_or_eq_of_le hble with h | h
    · omega
    · exfalso
      have hle := hlow (l.length - 1) (by omega)
      rw [hlast] at hle
      linarith
  have hbws : bisect (qcast (cumWeights (l.map Prod.snd)))
      (r * ((totalWeight l : ℤ) : ℚ)) < (l.map Prod.snd).length := by omega
  refine ⟨_, hblt, ?_, ?_, ?_, ?_⟩
  · show weightedChoice l r = _
    simp only [weightedChoice]
    rw [List.getElem?_eq_getElem (show bisect (qcast (cumWeights (l.map Prod.snd)))
      (r * ((totalWeight l : ℤ) : ℚ)) < (l.map Prod.fst).length by
        rw [List.length_map]; exact hblt)]
    rw [List.getElem_map]
  · have hub := hhigh _ (le_refl _) (by omega)
    rw [qcast_getD, cumWeights_getD _ _ hbws] at hub
    have hlb : (((l.map Prod.snd).take (bisect (qcast (cumWeights (l.map Prod.snd)))
        (r * ((totalWeight l : ℤ) : ℚ)))).sum : ℚ) ≤ r * ((totalWeight l : ℤ) : ℚ) := by
      cases hcase : bisect (qcast (cumWeights (l.map Prod.snd)))
          (r * ((totalWeight l : ℤ) : ℚ)) with
      | zero => simpa using hx0
      | succ m =>
          have hle := hlow m (by omega)
          rw [qcast_getD, cumWeights_getD _ _ (by omega)] at hle
          exact hle
    rw [List.sum_take_succ _ _ hbws] at hub
    push_cast at hub hlb
    have hq : (0 : ℤ) < (l.map Prod.snd)[bisect (qcast (cumWeights (l.map Prod.snd)))
        (r * ((totalWeight l : ℤ) : ℚ))] := by
      have hpos' : (0 : ℚ) < (((l.map Prod.snd)[bisect (qcast (cumWeights (l.map Prod.snd)))
          (r * ((totalWeight l : ℤ) : ℚ))] : ℤ) : ℚ) := by
        linarith
      exact_mod_cast hpos'
    rw [List.getElem_map] at hq
    exact hq
  · intro j hj
    have hle := hlow j hj
    rwa [qcast_getD] at hle
  · have hub := hhigh _ (le_refl _) (by omega)
    rwa [qcast_getD] at hub

/-- Failure of weighted_choice on the empty collection: zip(*choices) has
nothing to unpack and the call fails (values has no entry at the bisect
index). -/
theorem weightedChoice_nil {α : Type} (r : ℚ) :
    weightedChoice ([] : List (α × ℤ)) r = none := by
  simp [weightedChoice]

/-- Failure of weighted_choice when every weight is zero: the total is zero, so
x = 0 and no cumulative weight is strictly above x, hence the bisect index is
the length of values and values[i] fails with IndexError. -/
theorem weightedChoice_all_zero {α : Type} (l : List (α × ℤ)) (r : ℚ)
    (hz : ∀ p ∈ l, p.2 = 0) :
    weightedChoice l r = none := by
  have htot : totalWeight l = 0 := by
    apply List.sum_eq_zero
    intro z hz'
    obtain ⟨p, hp, rfl⟩ := List.mem_map.mp hz'
    exact hz p hp
  have hall : ∀ k, (qcast (cumWeights (l.map Prod.snd))).getD k 0 = 0 := by
    intro k
    rw [qcast_getD]
    by_cases hk : k < (l.map Prod.snd).length
    · rw [cumWeights_getD _ _ hk]
      norm_cast
      apply List.sum_eq_zero
      intro z hz'
      obtain ⟨p, hp, rfl⟩ := List.mem_map.mp (List.mem_of_mem_take hz')
      exact hz p hp
    · rw [List.getD_eq_default _ _ (by rw [cumWeights_length]; omega)]
      simp
  have hx : r * ((totalWeight l : ℤ) : ℚ) = 0 := by
    rw [htot]
    simp
  obtain ⟨hble, hlow, hhigh⟩ :=
    bisect_spec (qcast (cumWeights (l.map Prod.snd))) (r * ((totalWeight l : ℤ) : ℚ))
      (fun i j _ _ => by rw [hall, hall])
  have hge : (qcast (cumWeights (l.map Prod.snd))).length ≤
      bisect (qcast (cumWeights (l.map Prod.snd))) (r * ((totalWeight l : ℤ) : ℚ)) := by
    by_contra hlt
    push_neg at hlt
    have hc := hhigh _ (le_refl _) hlt
    rw [hall, hx] at hc
    exact absurd hc (lt_irrefl 0)
  simp only [weightedChoice]
  apply List.getElem?_eq_none
  rw [qcast_length, cumWeights_length, List.length_map] at hge
  rw [List.length_map]
  exact hge

/-- A diploid gene, stored as the canonical sorted tuple that Gene.__new__
produces on line 36 of randomMating.py: tuple(sorted(alleles)). -/
abbrev Gene := List ℤ

/-- Gene constructor (lines 27-36).  The guard assert len(alleles), 2 only
tests the truthiness of len(alleles) (2 is the assertion message), so it
succeeds exactly for nonempty argument tuples of any arity; the alleles are
integers by type, and the stored value is the sorted tuple of all supplied
alleles. -/
def mkGene (alleles : List ℤ) : Option Gene :=
  if alleles = [] then none else some (alleles.insertionSort (fun a b => a ≤ b))

/-- The two-allele constructor form Gene(x, y) as used by Genome.__new__ and
Gene.mate, which always receive exactly two alleles and always succeed. -/
def genePair (x y : ℤ) : Gene :=
  List.insertionSort (fun a b => a ≤ b) [x, y]

theorem mkGene_pair (x y : ℤ) : mkGene [x, y] = some (genePair x y) := by
  simp [mkGene, genePair]

theorem genePair_comm (x y : ℤ) : genePair x y = genePair y x := by
  apply List.eq_of_perm_of_sorted (r := fun a b => a ≤ b)
  · exact (List.perm_insertionSort _ _).trans
      ((List.Perm.swap y x []).trans (List.perm_insertionSort _ _).symm)
  · exact List.sorted_insertionSort _ _
  · exact List.sorted_insertionSort _ _

theorem mkGene_comm (x y : ℤ) : mkGene [x, y] = mkGene [y, x] := by
  rw [mkGene_pair, mkGene_pair, genePair_comm]

theorem genePair_length (x y : ℤ) : (genePair x y).length = 2 := by
  rw [genePair, List.Perm.length_eq (List.perm_insertionSort _ _)]
  rfl

theorem genePair_sorted (x y : ℤ) : List.Sorted (fun a b => a ≤ b) (genePair x y) :=
  List.sorted_insertionSort _ _

theorem genePair_eval (x y : ℤ) : genePair x y = if x ≤ y then [x, y] else [y, x] := by
  rw [genePair]
  simp [List.insertionSort, List.orderedInsert]

/-- Gene.mate (lines 39-45): Gene(random.choice(self), random.choice(other));
the two random.choice outcomes are passed in as slot indices i and j into the
tuples self and other. -/
def geneMate (g1 g2 : Gene) (i j : ℕ) : Option Gene :=
  match g1[i]?, g2[j]? with
  | some a, some b => mkGene [a, b]
  | _, _ => none

theorem geneMate_eval (g1 g2 : Gene) (i j : ℕ) (hi : i < g1.length) (hj : j < g2.length) :
    geneMate g1 g2 i j = some (genePair g1[i] g2[j]) := by
  unfold geneMate
  rw [List.getElem?_eq_getElem hi, List.getElem?_eq_getElem hj]
  simp [mkGene_pair]

/-- First-occurrence deduplication, matching the key insertion order of the
Python dict comprehension in Gene.allele_count. -/
def dedupFirst (l : List ℤ) : List ℤ :=
  l.foldl (fun acc a => if a ∈ acc then acc else acc ++ [a]) []

/-- Gene.allele_count (lines 37-38): dict comprehension over the alleles of
the tuple, mapping each distinct allele to the number of slots holding it. -/
def alleleCountG (g : Gene) : List (ℤ × ℕ) :=
  (dedupFirst g).map (fun a => (a, g.count a))

/-- A genome: a tuple of genes, the index of a gene in the tuple being its
locus (lines 47-57). -/
abbrev Genome := List Gene

/-- Genome constructor (lines 52-57): builds Gene(g[0], g[1]) for each
genotype pair g, preserving locus order. -/
def mkGenome (pairs : List (ℤ × ℤ)) : Genome :=
  pairs.map (fun p => genePair p.1 p.2)

/-- Genome.allele_count (lines 58-59): the list of per-locus allele counts. -/
def alleleCountGenome (g : Genome) : List (List (ℤ × ℕ)) :=
  g.map alleleCountG

/-- Rebuilding step of the Genome constructor as invoked from Genome.mate: a
mated gene g is re-read as g[0], g[1] and passed through Gene(g[0], g[1]);
a gene with fewer than two slots would fail the indexing. -/
def geneOfGene (g : Gene) : Option Gene :=
  match g[0]?, g[1]? with
  | some a, some b => mkGene [a, b]
  | _, _ => none

def genomeOfGenes : List Gene → Option Genome
  | [] => some []
  | g :: gs =>
    match geneOfGene g, genomeOfGenes gs with
    | some h, some hs => some (h :: hs)
    | _, _ => none

/-- Per-locus mating loop of Genome.mate (line 66): zip the two genomes and
mate corresponding loci; the pair of slot draws for locus i is sl i. -/
def mateLoci : List Gene → List Gene → (ℕ → ℕ × ℕ) → ℕ → Option (List Gene)
  | [], [], _, _ => some []
  | a :: t1, b :: t2, sl, i =>
    match geneMate a b (sl i).1 (sl i).2, mateLoci t1 t2 sl (i + 1) with
    | some g, some gs => some (g :: gs)
    | _, _ => none
  | _, _, _, _ => none

/-- Genome.mate (lines 60-66): assert the locus counts agree (the
LocusMismatch failure otherwise), mate the loci pairwise and rebuild a Genome
from the mated genes. -/
def genomeMate (g1 g2 : Genome) (sl : ℕ → ℕ × ℕ) : Option Genome :=
  if g1.length = g2.length then
    match mateLoci g1 g2 sl 0 with
    | some gs => genomeOfGenes gs
    | none => none
  else none

/-- Well-formedness of a genome as produced by the Genome constructor: every
gene holds exactly two alleles. -/
abbrev genomeWF (g : Genome) : Prop :=
  ∀ gene ∈ g, gene.length = 2

theorem geneOfGene_eval (g : Gene) (hlen : g.length = 2)
    (hs : List.Sorted (fun a b => a ≤ b) g) : geneOfGene g = some g := by
  rcases g with _ | ⟨a, _ | ⟨b, _ | ⟨c, t⟩⟩⟩
  · simp at hlen
  · simp at hlen
  · have hab : a ≤ b := (List.sorted_cons.mp hs).1 b (by simp)
    unfold geneOfGene
    simp [mkGene_pair, genePair_eval, hab]
  · simp at hlen

theorem genomeOfGenes_eval : ∀ gs : List Gene,
    (∀ g ∈ gs, g.length = 2 ∧ List.Sorted (fun a b => a ≤ b) g) →
    genomeOfGenes gs = some gs := by
  intro gs
  induction gs with
  | nil => intro _; rfl
  | cons g t ih =>
      intro h
      unfold genomeOfGenes
      rw [geneOfGene_eval g (h g (by simp)).1 (h g (by simp)).2,
        ih (fun g' hg' => h g' (List.mem_cons_of_mem _ hg'))]

theorem mateLoci_spec (sl : ℕ → ℕ × ℕ) (hsl : ∀ cl, (sl cl).1 < 2 ∧ (sl cl).2 < 2) :
    ∀ (t1 t2 : List Gene) (i0 : ℕ), t1.length = t2.length →
      (∀ g ∈ t1, g.length = 2) → (∀ g ∈ t2, g.length = 2) →
      ∃ gs, mateLoci t1 t2 sl i0 = some gs ∧ gs.length = t1.length ∧
        (∀ g ∈ gs, g.length = 2 ∧ List.Sorted (fun a b => a ≤ b) g) ∧
        (∀ k, k < gs.length → gs[k]? =
          geneMate (t1.getD k []) (t2.getD k []) (sl (i0 + k)).1 (sl (i0 + k)).2) := by
  intro t1
  induction t1 with
  | nil =>
      intro t2 i0 hlen _ _
      have ht2 : t2 = [] := List.length_eq_zero.mp hlen.symm
      subst ht2
      exact ⟨[], rfl, rfl, by simp, by simp⟩
  | cons a t1 ih =>
      intro t2 i0 hlen h1 h2
      rcases t2 with _ | ⟨b, t2⟩
      · simp at hlen
      · have ha : a.length = 2 := h1 a (by simp)
        have hb : b.length = 2 := h2 b (by simp)
        have hmate := geneMate_eval a b (sl i0).1 (sl i0).2
          (by rw [ha]; exact (hsl i0).1) (by rw [hb]; exact (hsl i0).2)
        obtain ⟨gs, hgs, hglen, hwf, hidx⟩ := ih t2 (i0 + 1) (by simpa using hlen)
          (fun g hg => h1 g (List.mem_cons_of_mem _ hg))
          (fun g hg => h2 g (List.mem_cons_of_mem _ hg))
        obtain ⟨gh, hgh, hghlen, hghsort⟩ : ∃ gh,
            geneMate a b (sl i0).1 (sl i0).2 = some gh ∧ gh.length = 2 ∧
              List.Sorted (fun x y => x ≤ y) gh := by
          rw [hmate]
          exact ⟨_, rfl, genePair_length _ _, genePair_sorted _ _⟩
        refine ⟨gh :: gs, ?_, by simp [hglen], ?_, ?_⟩
        · unfold mateLoci
          rw [hgh, hgs]
        · intro g hg
          rcases List.mem_cons.mp hg with hg | hg
          · exact hg ▸ ⟨hghlen, hghsort⟩
          · exact hwf g hg
        · intro k hk
          cases k with
          | zero => simp [hgh]
          | succ k =>
              have hk2 : k < gs.length := by simpa using hk
              have := hidx k hk2
              have harith : i0 + (k + 1) = i0 + 1 + k := by omega
              simp only [List.getElem?_cons_succ, List.getD_cons_succ, harith]
              exact this

/-- Success case of Genome.mate: with matching locus counts, two-allele genes
and in-range slot draws, the offspring genome has one gene per locus, each
being the mate of the corresponding parent genes. -/
theorem genomeMate_spec (g1 g2 : Genome) (sl : ℕ → ℕ × ℕ)
    (hsl : ∀ cl, (sl cl).1 < 2 ∧ (sl cl).2 < 2)
    (hwf1 : genomeWF g1) (hwf2 : genomeWF g2) (hlen : g1.length = g2.length) :
    ∃ off, genomeMate g1 g2 sl = some off ∧ off.length = g1.length ∧ genomeWF off ∧
      ∀ k, k < off.length →
        off[k]? = geneMate (g1.getD k []) (g2.getD k []) (sl k).1 (sl k).2 := by
  obtain ⟨gs, hgs, hglen, hwf, hidx⟩ := mateLoci_spec sl hsl g1 g2 0 hlen hwf1 hwf2
  refine ⟨gs, ?_, hglen, fun g hg => (hwf g hg).1, fun k hk => by simpa using hidx k hk⟩
  unfold genomeMate
  rw [if_pos hlen, hgs]
  show genomeOfGenes gs = some gs
  exact genomeOfGenes_eval gs hwf

/-- Failure case of Genome.mate: mismatched locus counts fail the assert on
line 64 (the LocusMismatch failure). -/
theorem genomeMate_mismatch (g1 g2 : Genome) (sl : ℕ → ℕ × ℕ)
    (h : g1.length ≠ g2.length) : genomeMate g1 g2 sl = none := by
  unfold genomeMate
  rw [if_neg h]

/-- A Species (lines 68-81): a dict mapping Genome keys to integer counts,
rendered as an insertion-ordered association list with distinct keys, which is
how Python dicts iterate. -/
abbrev Species := List (Genome × ℤ)

/-- Species.__init__ (lines 73-81): the only runtime check is
assert all(isinstance(g, Genome) for g in genome_dict), which holds here by
the type of the keys; the entries are then copied into the defaultdict.
Neither negative counts nor inconsistent locus counts are checked. -/
def mkSpecies (d : List (Genome × ℤ)) : Option Species :=
  some d

/-- Species.population (lines 82-83): sum(self.values()). -/
def population (s : Species) : ℤ :=
  (s.map Prod.snd).sum

/-- Lookup of self[g] with the defaultdict int factory: the count of the first
entry whose key is g, and 0 when the key is absent. -/
def lookupCount : Species → Genome → ℤ
  | [], _ => 0
  | (g2, c) :: rest, g => if g2 = g then c else lookupCount rest g

/-- The increment self[g] += 1 on a defaultdict: bump the count of the entry
holding g, appending a fresh entry with count 0 + 1 when g is absent. -/
def incr : Species → Genome → Species
  | [], g => [(g, 1)]
  | (g2, c) :: rest, g =>
    if g2 = g then (g2, c + 1) :: rest else (g2, c) :: incr rest g

/-- The decrement s[g] -= 1 on a defaultdict: drop the count of the entry
holding g by one, appending a fresh entry with count 0 - 1 when g is absent. -/
def decr : Species → Genome → Species
  | [], g => [(g, -1)]
  | (g2, c) :: rest, g =>
    if g2 = g then (g2, c - 1) :: rest else (g2, c) :: decr rest g

/-- Species.genome_frequencies (lines 84-86): total = float(sum(values)), then
a dict comprehension mapping every genome of the dict to cnt / total.  The
division only runs when the dict has at least one item, so a zero total fails
with ZeroDivisionError exactly when the dict is nonempty. -/
def genomeFrequencies (s : Species) : Option (List (Genome × ℚ)) :=
  if s = [] then some []
  else if population s = 0 then none
  else some (s.map (fun p => (p.1, (p.2 : ℚ) / ((population s : ℤ) : ℚ))))

/-- The defaultdict(int) accumulation allele_sum[a] += v. -/
def incrBy : List (ℤ × ℤ) → ℤ → ℤ → List (ℤ × ℤ)
  | [], a, v => [(a, v)]
  | (a2, c) :: rest, a, v =>
    if a2 = a then (a2, c + v) :: rest else (a2, c) :: incrBy rest a v

/-- Inner loop of Species.allele_counts (lines 93-96): fold one genome's
per-locus allele distribution d into the accumulator, each allele multiplicity
weighted by the genome's population count c. -/
def addGeneCounts (acc : List (ℤ × ℤ)) (d : List (ℤ × ℕ)) (c : ℤ) : List (ℤ × ℤ) :=
  d.foldl (fun acc2 p => incrBy acc2 p.1 ((p.2 : ℤ) * c)) acc

/-- Outer loop of Species.allele_counts (lines 87-97): for each genome g with
count c, index its allele_count() list at locus (IndexError, the InvalidLocus
failure, when a genome has fewer loci) and accumulate into allele_sum. -/
def alleleCountsGo : List (Genome × ℤ) → ℕ → List (ℤ × ℤ) → Option (List (ℤ × ℤ))
  | [], _, acc => some acc
  | (g, c) :: rest, locus, acc =>
    match (alleleCountGenome g)[locus]? with
    | some d => alleleCountsGo rest locus (addGeneCounts acc d c)
    | none => none

/-- Species.allele_counts (lines 87-97). -/
def alleleCounts (s : Species) (locus : ℕ) : Option (List (ℤ × ℤ)) :=
  alleleCountsGo s locus []

/-- Species.allele_frequencies (lines 98-100): total = float(sum of the allele
counts), then a dict comprehension dividing each count by total; as in
genome_frequencies the division only runs when there is at least one item. -/
def alleleFrequencies (s : Species) (locus : ℕ) : Option (List (ℤ × ℚ)) :=
  match alleleCounts s locus with
  | none => none
  | some cnts =>
      if cnts = [] then some []
      else if (cnts.map Prod.snd).sum = 0 then none
      else some (cnts.map (fun p => (p.1, (p.2 : ℚ) / (((cnts.map Prod.snd).sum : ℤ) : ℚ))))

/-- The random draws consumed by one iteration of the mating loop: the two
uniform draws behind the two weighted_choice calls, and for each locus the two
slot draws behind random.choice in Gene.mate. -/
def validRand (rho : ℕ → ℚ × ℚ × (ℕ → ℕ × ℕ)) : Prop :=
  ∀ k, 0 ≤ (rho k).1 ∧ (rho k).1 < 1 ∧ 0 ≤ (rho k).2.1 ∧ (rho k).2.1 < 1 ∧
    ∀ cl, ((rho k).2.2 cl).1 < 2 ∧ ((rho k).2.2 cl).2 < 2

/-- The while loop of Species.mate (lines 101-113), with an explicit fuel
bound on the number of iterations (the loop consumes two individuals of the
working copy s per iteration, so population-many units of fuel always
suffice, as proved below).  The live population is only ever incremented; the
working copy is only ever decremented. -/
def mateLoop (rho : ℕ → ℚ × ℚ × (ℕ → ℕ × ℕ)) :
    ℕ → ℕ → Species → Species → Option Species
  | 0, _, s, live => if population s < 2 then some live else none
  | fuel + 1, k, s, live =>
    if population s < 2 then some live
    else
      match weightedChoice s (rho k).1 with
      | none => none
      | some g1 =>
        match weightedChoice (decr s g1) (rho k).2.1 with
        | none => none
        | some g2 =>
          match genomeMate g1 g2 (rho k).2.2 with
          | none => none
          | some off => mateLoop rho fuel (k + 1) (decr (decr s g1) g2) (incr live off)

/-- Species.mate (lines 101-113): work on a copy s of the species and add each
offspring to the live population.  The fuel population(s) is enough for the
loop to run to completion, which the main theorem proves. -/
def mate (s : Species) (rho : ℕ → ℚ × ℚ × (ℕ → ℕ × ℕ)) : Option Species :=
  mateLoop rho (population s).toNat 0 s s

theorem population_nonneg (s : Species) (h : ∀ p ∈ s, 0 ≤ p.2) : 0 ≤ population s :=
  List.sum_nonneg (fun x hx => by
    obtain ⟨p, hp, rfl⟩ := List.mem_map.mp hx
    exact h p hp)

theorem population_incr (s : Species) (g : Genome) :
    population (incr s g) = population s + 1 := by
  induction s with
  | nil => simp [incr, population]
  | cons p rest ih =>
      obtain ⟨g2, c⟩ := p
      by_cases h : g2 = g
      · simp only [incr, if_pos h, population, List.map_cons, List.sum_cons]
        simp only [population] at ih ⊢
        ring
      · simp only [incr, if_neg h, population, List.map_cons, List.sum_cons]
        simp only [population] at ih
        omega

theorem population_decr (s : Species) (g : Genome) :
    population (decr s g) = population s - 1 := by
  induction s with
  | nil => simp [decr, population]
  | cons p rest ih =>
      obtain ⟨g2, c⟩ := p
      by_cases h : g2 = g
      · simp only [decr, if_pos h, population, List.map_cons, List.sum_cons]
        ring
      · simp only [decr, if_neg h, population, List.map_cons, List.sum_cons]
        simp only [population] at ih
        omega

theorem lookupCount_incr_self (s : Species) (g : Genome) :
    lookupCount (incr s g) g = lookupCount s g + 1 := by
  induction s with
  | nil => simp [incr, lookupCount]
  | cons p rest ih =>
      obtain ⟨g2, c⟩ := p
      by_cases h : g2 = g
      · simp [incr, lookupCount, h]
      · simp [incr, lookupCount, h, ih]

theorem lookupCount_incr_other (s : Species) (g h : Genome) (hne : h ≠ g) :
    lookupCount (incr s g) h = lookupCount s h := by
  induction s with
  | nil =>
      show lookupCount [(g, 1)] h = lookupCount [] h
      simp only [lookupCount]
      rw [if_neg (fun he : g = h => hne he.symm)]
  | cons p rest ih =>
      obtain ⟨g2, c⟩ := p
      by_cases hcase : g2 = g
      · simp only [incr, if_pos hcase, lookupCount]
        rw [if_neg (fun he : g2 = h => hne (he.symm.trans hcase)),
          if_neg (fun he : g2 = h => hne (he.symm.trans hcase))]
      · simp only [incr, if_neg hcase, lookupCount]
        by_cases hcase2 : g2 = h
        · rw [if_pos hcase2, if_pos hcase2]
        · rw [if_neg hcase2, if_neg hcase2]
          exact ih

theorem lookupCount_le_incr (s : Species) (g h : Genome) :
    lookupCount s h ≤ lookupCount (incr s g) h := by
  by_cases hcase : h = g
  · subst hcase
    rw [lookupCount_incr_self]
    omega
  · rw [lookupCount_incr_other s g h hcase]

theorem keys_decr (s : Species) (g : Genome) (hg : g ∈ s.map Prod.fst) :
    (decr s g).map Prod.fst = s.map Prod.fst := by
  induction s with
  | nil => simp at hg
  | cons p rest ih =>
      obtain ⟨g2, c⟩ := p
      by_cases h : g2 = g
      · simp [decr, h]
      · have hg2 : g ∈ rest.map Prod.fst := by
          rw [List.map_cons] at hg
          rcases List.mem_cons.mp hg with hcase | hcase
          · exact absurd hcase.symm h
          · exact hcase
        simp [decr, h, ih hg2]

theorem decr_nonneg (s : Species) (g : Genome) (h : ∀ p ∈ s, 0 ≤ p.2)
    (hg : 0 < lookupCount s g) : ∀ p ∈ decr s g, 0 ≤ p.2 := by
  induction s with
  | nil => simp [lookupCount] at hg
  | cons q rest ih =>
      obtain ⟨g2, c⟩ := q
      by_cases hcase : g2 = g
      · intro p hp
        rw [lookupCount, if_pos hcase] at hg
        rcases List.mem_cons.mp (by simpa [decr, hcase] using hp) with hp2 | hp2
        · rw [hp2]
          simp only []
          omega
        · exact h p (List.mem_cons_of_mem _ hp2)
      · intro p hp
        rw [lookupCount, if_neg hcase] at hg
        rcases List.mem_cons.mp (by simpa [decr, hcase] using hp) with hp2 | hp2
        · rw [hp2]
          exact h (g2, c) (by simp)
        · exact ih (fun q hq => h q (List.mem_cons_of_mem _ hq)) hg p hp2

theorem lookupCount_get (s : Species) (hnd : (s.map Prod.fst).Nodup) (i : ℕ)
    (hi : i < s.length) :
    lookupCount s (s[i].1) = s[i].2 := by
  induction s generalizing i with
  | nil => simp at hi
  | cons p rest ih =>
      obtain ⟨g2, c⟩ := p
      cases i with
      | zero => simp [lookupCount]
      | succ i =>
          have hi2 : i < rest.length := by simpa using hi
          rw [List.map_cons] at hnd
          obtain ⟨hnotmem, hnd2⟩ := List.nodup_cons.mp hnd
          have hne : ¬ g2 = rest[i].1 := by
            intro hEq
            apply hnotmem
            rw [show ((g2, c).1 : Genome) = g2 from rfl, hEq]
            exact List.mem_map.mpr ⟨rest[i], List.getElem_mem hi2, rfl⟩
          simp only [List.getElem_cons_succ, lookupCount, if_neg hne]
          exact ih hnd2 i hi2

/-- One successful iteration of the mating loop rewrites to the recursive call
on the doubly decremented working copy and the incremented live population. -/
theorem mateLoop_step (rho : ℕ → ℚ × ℚ × (ℕ → ℕ × ℕ)) (fuel k : ℕ) (s live : Species)
    (hpop : ¬ population s < 2) (g1 g2 off : Genome)
    (h1 : weightedChoice s (rho k).1 = some g1)
    (h2 : weightedChoice (decr s g1) (rho k).2.1 = some g2)
    (h3 : genomeMate g1 g2 (rho k).2.2 = some off) :
    mateLoop rho (fuel + 1) k s live =
      mateLoop rho fuel (k + 1) (decr (decr s g1) g2) (incr live off) := by
  simp only [mateLoop, if_neg hpop, h1, h2, h3]

/-- Loop invariant of Species.mate: when the counts of the working copy s are
nonnegative, its keys distinct, all its genomes well formed with a common
locus count, and fuel covers half the working population, the loop completes,
never lowers a live count, and adds floor(population s / 2) individuals to the
live population. -/
theorem mateLoop_spec (rho : ℕ → ℚ × ℚ × (ℕ → ℕ × ℕ)) (hrho : validRand rho) (L : ℕ) :
    ∀ (fuel : ℕ) (s live : Species) (k : ℕ),
      population s ≤ 2 * fuel + 1 →
      (∀ p ∈ s, 0 ≤ p.2) →
      (s.map Prod.fst).Nodup →
      (∀ g ∈ s.map Prod.fst, genomeWF g ∧ g.length = L) →
      ∃ t, mateLoop rho fuel k s live = some t ∧
        population t = population live + population s / 2 ∧
        ∀ g, lookupCount live g ≤ lookupCount t g := by
  intro fuel
  induction fuel with
  | zero =>
      intro s live k hfuel hnn _ _
      have hpop : population s < 2 := by omega
      refine ⟨live, ?_, ?_, fun g => le_refl _⟩
      · simp only [mateLoop]
        rw [if_pos hpop]
      · have h0 : 0 ≤ population s := population_nonneg s hnn
        omega
  | succ fuel ih =>
      intro s live k hfuel hnn hnd hwf
      by_cases hpop : population s < 2
      · refine ⟨live, ?_, ?_, fun g => le_refl _⟩
        · simp only [mateLoop]
          rw [if_pos hpop]
        · have h0 : 0 ≤ population s := population_nonneg s hnn
          omega
      · push_neg at hpop
        obtain ⟨hr1a, hr1b, hr2a, hr2b, hsl⟩ := hrho k
        have htotal : totalWeight s = population s := rfl
        obtain ⟨i1, hi1, hwc1, hcpos1, -, -⟩ :=
          weightedChoice_spec s (rho k).1 hr1a hr1b hnn (by rw [htotal]; omega)
        have hg1mem : s[i1].1 ∈ s.map Prod.fst :=
          List.mem_map.mpr ⟨s[i1], List.getElem_mem hi1, rfl⟩
        have hg1cnt : 0 < lookupCount s (s[i1].1) := by
          rw [lookupCount_get s hnd i1 hi1]
          exact hcpos1
        have hkeys1 : (decr s (s[i1].1)).map Prod.fst = s.map Prod.fst :=
          keys_decr s _ hg1mem
        have hnn1 : ∀ p ∈ decr s (s[i1].1), 0 ≤ p.2 := decr_nonneg s _ hnn hg1cnt
        have hnd1 : ((decr s (s[i1].1)).map Prod.fst).Nodup := by
          rw [hkeys1]
          exact hnd
        have hwf1 : ∀ g ∈ (decr s (s[i1].1)).map Prod.fst, genomeWF g ∧ g.length = L := by
          rw [hkeys1]
          exact hwf
        have hpop1 : population (decr s (s[i1].1)) = population s - 1 := population_decr s _
        have htotal1 : totalWeight (decr s (s[i1].1)) = population (decr s (s[i1].1)) := rfl
        obtain ⟨i2, hi2, hwc2, hcpos2, -, -⟩ :=
          weightedChoice_spec (decr s (s[i1].1)) (rho k).2.1 hr2a hr2b hnn1
            (by rw [htotal1, hpop1]; omega)
        have hg2mem : (decr s (s[i1].1))[i2].1 ∈ (decr s (s[i1].1)).map Prod.fst :=
          List.mem_map.mpr ⟨(decr s (s[i1].1))[i2], List.getElem_mem hi2, rfl⟩
        have hg2cnt : 0 < lookupCount (decr s (s[i1].1)) ((decr s (s[i1].1))[i2].1) := by
          rw [lookupCount_get _ hnd1 i2 hi2]
          exact hcpos2
        have hkeys2 : (decr (decr s (s[i1].1)) ((decr s (s[i1].1))[i2].1)).map Prod.fst =
            (decr s (s[i1].1)).map Prod.fst :=
          keys_decr _ _ hg2mem
        have hnn2 : ∀ p ∈ decr (decr s (s[i1].1)) ((decr s (s[i1].1))[i2].1), 0 ≤ p.2 :=
          decr_nonneg _ _ hnn1 hg2cnt
        have hnd2 : ((decr (decr s (s[i1].1)) ((decr s (s[i1].1))[i2].1)).map Prod.fst).Nodup := by
          rw [hkeys2]
          exact hnd1
        have hwf2 : ∀ g ∈ (decr (decr s (s[i1].1)) ((decr s (s[i1].1))[i2].1)).map Prod.fst,
            genomeWF g ∧ g.length = L := by
          rw [hkeys2]
          exact hwf1
        have hpop2 : population (decr (decr s (s[i1].1)) ((decr s (s[i1].1))[i2].1)) =
            population s - 2 := by
          rw [population_decr, hpop1]
          ring
        have hg1wf := hwf _ hg1mem
        have hg2wf := hwf1 _ hg2mem
        obtain ⟨off, hoff, -, -, -⟩ := genomeMate_spec (s[i1].1) ((decr s (s[i1].1))[i2].1)
          (rho k).2.2 hsl hg1wf.1 hg2wf.1 (hg1wf.2.trans hg2wf.2.symm)
        obtain ⟨t, ht, htpop, htmono⟩ := ih
          (decr (decr s (s[i1].1)) ((decr s (s[i1].1))[i2].1)) (incr live off) (k + 1)
          (by rw [hpop2]; omega) hnn2 hnd2 hwf2
        refine ⟨t, ?_, ?_, ?_⟩
        · rw [mateLoop_step rho fuel k s live (by omega) _ _ off hwc1 hwc2 hoff]
          exact ht
        · rw [htpop, population_incr, hpop2]
          have h0 : 0 ≤ population s := population_nonneg s hnn
          omega
        · intro g
          exact le_trans (lookupCount_le_incr live off g) (htmono g)

/-- Species.mate on a well-formed species: the loop terminates within the
provided fuel, the live population only grows entrywise, and the total
population grows by exactly floor(population / 2). -/
theorem mate_spec (s : Species) (rho : ℕ → ℚ × ℚ × (ℕ → ℕ × ℕ)) (L : ℕ)
    (hnn : ∀ p ∈ s, 0 ≤ p.2) (hnd : (s.map Prod.fst).Nodup)
    (hwf : ∀ g ∈ s.map Prod.fst, genomeWF g ∧ g.length = L)
    (hrho : validRand rho) :
    ∃ t, mate s rho = some t ∧ population t = population s + population s / 2 ∧
      ∀ g, lookupCount s g ≤ lookupCount t g := by
  have h0 : 0 ≤ population s := population_nonneg s hnn
  have hfuel : population s ≤ 2 * (population s).toNat + 1 := by omega
  exact mateLoop_spec rho hrho L (population s).toNat s s 0 hfuel hnn hnd hwf

/-- The bisect result is pinned down by the two half-bounds it satisfies. -/
theorem bisect_eval_of_bounds (a : List ℚ) (x : ℚ)
    (hsort : ∀ i j, i ≤ j → j < a.length → a.getD i 0 ≤ a.getD j 0)
    (i : ℕ) (hi : i ≤ a.length)
    (hlow : ∀ k, k < i → a.getD k 0 ≤ x)
    (hhigh : ∀ k, i ≤ k → k < a.length → x < a.getD k 0) :
    bisect a x = i := by
  obtain ⟨hble, hlow2, hhigh2⟩ := bisect_spec a x hsort
  by_contra hne
  rcases lt_or_gt_of_ne hne with hlt | hgt
  · have h1 := hhigh2 (bisect a x) (le_refl _) (by omega)
    have h2 := hlow (bisect a x) hlt
    linarith
  · have h1 := hlow2 i hgt
    have h2 := hhigh i (le_refl _) (by omega)
    linarith

theorem weightedChoice_one_one {α : Type} (A B : α) (r : ℚ) (_h0 : 0 ≤ r) (h1 : r < 1) :
    weightedChoice [(A, 1), (B, 1)] r = some (if r * 2 < 1 then A else B) := by
  have hcum : qcast (cumWeights (List.map Prod.snd [(A, (1 : ℤ)), (B, 1)])) = [(1 : ℚ), 2] := by
    norm_num [qcast, cumWeights, cumAux]
  have htw : ((totalWeight [(A, (1 : ℤ)), (B, 1)] : ℤ) : ℚ) = 2 := by
    norm_num [totalWeight]
  have hsort : ∀ i j, i ≤ j → j < ([(1 : ℚ), 2]).length →
      ([(1 : ℚ), 2]).getD i 0 ≤ ([(1 : ℚ), 2]).getD j 0 := by
    intro i j hij hj
    simp only [List.length_cons, List.length_nil] at hj
    interval_cases j <;> interval_cases i <;>
      simp [List.getD_cons_zero, List.getD_cons_succ]
  simp only [weightedChoice]
  rw [hcum, htw]
  by_cases hc : r * 2 < 1
  · have hb : bisect [(1 : ℚ), 2] (r * 2) = 0 := by
      apply bisect_eval_of_bounds _ _ hsort 0 (by norm_num)
      · intro k hk
        exact absurd hk (Nat.not_lt_zero k)
      · intro k _ hk2
        simp only [List.length_cons, List.length_nil] at hk2
        interval_cases k <;> simp [List.getD_cons_zero, List.getD_cons_succ] <;> linarith
    rw [hb, if_pos hc]
    simp
  · have hb : bisect [(1 : ℚ), 2] (r * 2) = 1 := by
      apply bisect_eval_of_bounds _ _ hsort 1 (by norm_num)
      · intro k hk
        interval_cases k
        simp only [List.getD_cons_zero]
        linarith
      · intro k hk hk2
        simp only [List.length_cons, List.length_nil] at hk2
        interval_cases k
        simp only [List.getD_cons_succ, List.getD_cons_zero]
        linarith
    rw [hb, if_neg hc]
    simp

theorem weightedChoice_zero_one {α : Type} (A B : α) (r : ℚ) (h0 : 0 ≤ r) (h1 : r < 1) :
    weightedChoice [(A, 0), (B, 1)] r = some B := by
  have hcum : qcast (cumWeights (List.map Prod.snd [(A, (0 : ℤ)), (B, 1)])) = [(0 : ℚ), 1] := by
    norm_num [qcast, cumWeights, cumAux]
  have htw : ((totalWeight [(A, (0 : ℤ)), (B, 1)] : ℤ) : ℚ) = 1 := by
    norm_num [totalWeight]
  have hsort : ∀ i j, i ≤ j → j < ([(0 : ℚ), 1]).length →
      ([(0 : ℚ), 1]).getD i 0 ≤ ([(0 : ℚ), 1]).getD j 0 := by
    intro i j hij hj
    simp only [List.length_cons, List.length_nil] at hj
    interval_cases j <;> interval_cases i <;>
      simp [List.getD_cons_zero, List.getD_cons_succ]
  have hb : bisect [(0 : ℚ), 1] (r * 1) = 1 := by
    apply bisect_eval_of_bounds _ _ hsort 1 (by norm_num)
    · intro k hk
      interval_cases k
      simp only [List.getD_cons_zero]
      linarith
    · intro k hk hk2
      simp only [List.length_cons, List.length_nil] at hk2
      interval_cases k
      simp only [List.getD_cons_succ, List.getD_cons_zero]
      linarith
  simp only [weightedChoice]
  rw [hcum, htw, hb]
  simp

theorem weightedChoice_one_zero {α : Type} (A B : α) (r : ℚ) (_h0 : 0 ≤ r) (h1 : r < 1) :
    weightedChoice [(A, 1), (B, 0)] r = some A := by
  have hcum : qcast (cumWeights (List.map Prod.snd [(A, (1 : ℤ)), (B, 0)])) = [(1 : ℚ), 1] := by
    norm_num [qcast, cumWeights, cumAux]
  have htw : ((totalWeight [(A, (1 : ℤ)), (B, 0)] : ℤ) : ℚ) = 1 := by
    norm_num [totalWeight]
  have hsort : ∀ i j, i ≤ j → j < ([(1 : ℚ), 1]).length →
      ([(1 : ℚ), 1]).getD i 0 ≤ ([(1 : ℚ), 1]).getD j 0 := by
    intro i j hij hj
    simp only [List.length_cons, List.length_nil] at hj
    interval_cases j <;> interval_cases i <;>
      simp [List.getD_cons_zero, List.getD_cons_succ]
  have hb : bisect [(1 : ℚ), 1] (r * 1) = 0 := by
    apply bisect_eval_of_bounds _ _ hsort 0 (by norm_num)
    · intro k hk
      exact absurd hk (Nat.not_lt_zero k)
    · intro k hk hk2
      simp only [List.length_cons, List.length_nil] at hk2
      interval_cases k <;> simp [List.getD_cons_zero, List.getD_cons_succ] <;> linarith
  simp only [weightedChoice]
  rw [hcum, htw, hb]
  simp

/-- Deterministic evaluation of one mate() call on the two-genome species of
the test fixture: whatever the draws, the first weighted choice picks one of
the two genomes, the second can only pick the other (the first now has weight
zero), and the offspring of Genome((1,1)) with Genome((2,2)) is always
Genome((1,2)), appended to the live population with count one. -/
theorem mate_eval_two (rho : ℕ → ℚ × ℚ × (ℕ → ℕ × ℕ)) (hrho : validRand rho) :
    mate [([[1, 1]], 1), ([[2, 2]], 1)] rho =
      some [([[1, 1]], 1), ([[2, 2]], 1), ([[1, 2]], 1)] := by
  obtain ⟨h1a, h1b, h2a, h2b, hsl⟩ := hrho 0
  have hgm11 : ∀ i j : ℕ, i < 2 → j < 2 → geneMate [1, 1] [2, 2] i j = some [1, 2] := by
    intro i j hi hj
    interval_cases i <;> interval_cases j <;> decide
  have hgm22 : ∀ i j : ℕ, i < 2 → j < 2 → geneMate [2, 2] [1, 1] i j = some [1, 2] := by
    intro i j hi hj
    interval_cases i <;> interval_cases j <;> decide
  have h3a : genomeMate [[1, 1]] [[2, 2]] (rho 0).2.2 = some [[1, 2]] := by
    unfold genomeMate
    rw [if_pos (show ([[1, 1]] : Genome).length = ([[2, 2]] : Genome).length from rfl)]
    have hml : mateLoci [[1, 1]] [[2, 2]] (rho 0).2.2 0 = some [[1, 2]] := by
      unfold mateLoci
      rw [hgm11 _ _ (hsl 0).1 (hsl 0).2]
      rfl
    rw [hml]
    decide
  have h3b : genomeMate [[2, 2]] [[1, 1]] (rho 0).2.2 = some [[1, 2]] := by
    unfold genomeMate
    rw [if_pos (show ([[2, 2]] : Genome).length = ([[1, 1]] : Genome).length from rfl)]
    have hml : mateLoci [[2, 2]] [[1, 1]] (rho 0).2.2 0 = some [[1, 2]] := by
      unfold mateLoci
      rw [hgm22 _ _ (hsl 0).1 (hsl 0).2]
      rfl
    rw [hml]
    decide
  have hpop0 : ¬ population [([[1, 1]], 1), ([[2, 2]], 1)] < 2 := by decide
  by_cases hc : (rho 0).1 * 2 < 1
  · have h1 : weightedChoice ([([[1, 1]], 1), ([[2, 2]], 1)] : Species) (rho 0).1 =
        some [[1, 1]] := by
      rw [weightedChoice_one_one _ _ _ h1a h1b, if_pos hc]
    have hdec1 : decr [([[1, 1]], 1), ([[2, 2]], 1)] [[1, 1]] =
        [([[1, 1]], 0), ([[2, 2]], 1)] := by decide
    have h2 : weightedChoice (decr [([[1, 1]], 1), ([[2, 2]], 1)] [[1, 1]]) (rho 0).2.1 =
        some [[2, 2]] := by
      rw [hdec1]
      exact weightedChoice_zero_one _ _ _ h2a h2b
    show mateLoop rho (1 + 1) 0 [([[1, 1]], 1), ([[2, 2]], 1)] [([[1, 1]], 1), ([[2, 2]], 1)] = _
    rw [mateLoop_step rho 1 0 [([[1, 1]], 1), ([[2, 2]], 1)] [([[1, 1]], 1), ([[2, 2]], 1)]
      hpop0 [[1, 1]] [[2, 2]] [[1, 2]] h1 h2 h3a]
    have hdec2 : decr (decr [([[1, 1]], 1), ([[2, 2]], 1)] [[1, 1]]) [[2, 2]] =
        [([[1, 1]], 0), ([[2, 2]], 0)] := by decide
    have hincr : incr [([[1, 1]], 1), ([[2, 2]], 1)] [[1, 2]] =
        [([[1, 1]], 1), ([[2, 2]], 1), ([[1, 2]], 1)] := by decide
    rw [hdec2, hincr]
    show mateLoop rho (0 + 1) 1 [([[1, 1]], 0), ([[2, 2]], 0)]
      [([[1, 1]], 1), ([[2, 2]], 1), ([[1, 2]], 1)] = _
    simp only [mateLoop]
    rw [if_pos (by decide : population [([[1, 1]], 0), ([[2, 2]], 0)] < 2)]
  · have h1 : weightedChoice ([([[1, 1]], 1), ([[2, 2]], 1)] : Species) (rho 0).1 =
        some [[2, 2]] := by
      rw [weightedChoice_one_one _ _ _ h1a h1b, if_neg hc]
    have hdec1 : decr [([[1, 1]], 1), ([[2, 2]], 1)] [[2, 2]] =
        [([[1, 1]], 1), ([[2, 2]], 0)] := by decide
    have h2 : weightedChoice (decr [([[1, 1]], 1), ([[2, 2]], 1)] [[2, 2]]) (rho 0).2.1 =
        some [[1, 1]] := by
      rw [hdec1]
      exact weightedChoice_one_zero _ _ _ h2a h2b
    show mateLoop rho (1 + 1) 0 [([[1, 1]], 1), ([[2, 2]], 1)] [([[1, 1]], 1), ([[2, 2]], 1)] = _
    rw [mateLoop_step rho 1 0 [([[1, 1]], 1), ([[2, 2]], 1)] [([[1, 1]], 1), ([[2, 2]], 1)]
      hpop0 [[2, 2]] [[1, 1]] [[1, 2]] h1 h2 h3b]
    have hdec2 : decr (decr [([[1, 1]], 1), ([[2, 2]], 1)] [[2, 2]]) [[1, 1]] =
        [([[1, 1]], 0), ([[2, 2]], 0)] := by decide
    have hincr : incr [([[1, 1]], 1), ([[2, 2]], 1)] [[1, 2]] =
        [([[1, 1]], 1), ([[2, 2]], 1), ([[1, 2]], 1)] := by decide
    rw [hdec2, hincr]
    show mateLoop rho (0 + 1) 1 [([[1, 1]], 0), ([[2, 2]], 0)]
      [([[1, 1]], 1), ([[2, 2]], 1), ([[1, 2]], 1)] = _
    simp only [mateLoop]
    rw [if_pos (by decide : population [([[1, 1]], 0), ([[2, 2]], 0)] < 2)]

/-- The failure condition of weighted_choice over nonnegative weights: it
fails exactly on the empty collection (nothing to unpack) or when all weights
are zero (the bisect index falls off the end of values). -/
theorem weightedChoice_none_iff {α : Type} (l : List (α × ℤ)) (r : ℚ)
    (h0 : 0 ≤ r) (h1 : r < 1) (hw : ∀ p ∈ l, 0 ≤ p.2) :
    weightedChoice l r = none ↔ (l = [] ∨ ∀ p ∈ l, p.2 = 0) := by
  constructor
  · intro hnone
    by_contra hcon
    push_neg at hcon
    obtain ⟨hne, p, hp, hpz⟩ := hcon
    have hppos : 0 < p.2 := lt_of_le_of_ne (hw p hp) (Ne.symm hpz)
    have htot : 0 < totalWeight l := by
      have hle : p.2 ≤ (l.map Prod.snd).sum := by
        apply List.single_le_sum
        · intro w hw'
          obtain ⟨q, hq, rfl⟩ := List.mem_map.mp hw'
          exact hw q hq
        · exact List.mem_map.mpr ⟨p, hp, rfl⟩
      exact lt_of_lt_of_le hppos hle
    obtain ⟨i, hi, heq, -, -, -⟩ := weightedChoice_spec l r h0 h1 hw htot
    rw [heq] at hnone
    exact Option.noConfusion hnone
  · intro hcase
    rcases hcase with hnil | hz
    · rw [hnil]
      exact weightedChoice_nil r
    · exact weightedChoice_all_zero l r hz

theorem genomeFrequencies_none_iff (s : Species) :
    genomeFrequencies s = none ↔ (s ≠ [] ∧ population s = 0) := by
  unfold genomeFrequencies
  by_cases h1 : s = []
  · rw [if_pos h1]
    simp [h1]
  · rw [if_neg h1]
    by_cases h2 : population s = 0
    · rw [if_pos h2]
      simp [h1, h2]
    · rw [if_neg h2]
      simp [h1, h2]

theorem genomeFrequencies_keys (s : Species) (m : List (Genome × ℚ))
    (h : genomeFrequencies s = some m) : m.map Prod.fst = s.map Prod.fst := by
  unfold genomeFrequencies at h
  by_cases h1 : s = []
  · rw [if_pos h1] at h
    injection h with h
    rw [← h, h1]
    rfl
  · rw [if_neg h1] at h
    by_cases h2 : population s = 0
    · rw [if_pos h2] at h
      exact Option.noConfusion h
    · rw [if_neg h2] at h
      injection h with h
      rw [← h, List.map_map]
      rfl

theorem genomeFrequencies_of_total_ne (s : Species) (h : population s ≠ 0) :
    genomeFrequencies s =
      some (s.map (fun p => (p.1, (p.2 : ℚ) / ((population s : ℤ) : ℚ)))) := by
  unfold genomeFrequencies
  by_cases h1 : s = []
  · rw [if_pos h1, h1]
    rfl
  · rw [if_neg h1, if_neg h]

theorem alleleFrequencies_nil (locus : ℕ) :
    alleleFrequencies [] locus = some [] := rfl

theorem totalWeight_pos {α : Type} (l : List (α × ℤ)) (hw : ∀ p ∈ l, 0 ≤ p.2)
    (p : α × ℤ) (hp : p ∈ l) (hpz : 0 < p.2) : 0 < totalWeight l := by
  have hle : p.2 ≤ (l.map Prod.snd).sum := by
    apply List.single_le_sum
    · intro w hw'
      obtain ⟨q, hq, rfl⟩ := List.mem_map.mp hw'
      exact hw q hq
    · exact List.mem_map.mpr ⟨p, hp, rfl⟩
  exact lt_of_lt_of_le hpz hle

/-- C1: on every well-formed Population (nonnegative counts, distinct genome
keys, a common locus count L with two-allele genes) and for every sequence of
random draws, a single call of mate() terminates successfully, never lowers
the live count of any genome (parents remain counted), and leaves the total
population at exactly N + floor(N / 2) for the initial total N. -/
theorem c1_mate_growth (s : Species) (rho : ℕ → ℚ × ℚ × (ℕ → ℕ × ℕ)) (L : ℕ)
    (hnn : ∀ p ∈ s, 0 ≤ p.2) (hnd : (s.map Prod.fst).Nodup)
    (hwf : ∀ g ∈ s.map Prod.fst, genomeWF g ∧ g.length = L)
    (hrho : validRand rho) :
    ∃ t, mate s rho = some t ∧
      population t = population s + population s / 2 ∧
      ∀ g, lookupCount s g ≤ lookupCount t g :=
  mate_spec s rho L hnn hnd hwf hrho

theorem c1_mate_growth_witness :
    ∃ t, mate [([[1, 1]], 2), ([[2, 2]], 1)] (fun _ => (0, 0, fun _ => (0, 0))) = some t ∧
      population t = population [([[1, 1]], 2), ([[2, 2]], 1)] +
        population [([[1, 1]], 2), ([[2, 2]], 1)] / 2 ∧
      ∀ g, lookupCount [([[1, 1]], 2), ([[2, 2]], 1)] g ≤ lookupCount t g :=
  c1_mate_growth [([[1, 1]], 2), ([[2, 2]], 1)] (fun _ => (0, 0, fun _ => (0, 0))) 1
    (by decide) (by decide) (by decide)
    (fun _ => ⟨le_refl 0, by norm_num, le_refl 0, by norm_num,
      fun _ => ⟨by norm_num, by norm_num⟩⟩)

/-- C2: from the test fixture Population of Genome((1,1)) and Genome((2,2))
with one individual each, every sequence of draws leads mate() to the same
result: total 3, genome frequencies one third each with the offspring
Genome((1,2)) appended, and allele frequencies one half each. -/
theorem c2_two_genome_mate (rho : ℕ → ℚ × ℚ × (ℕ → ℕ × ℕ)) (hrho : validRand rho) :
    mate [([[1, 1]], 1), ([[2, 2]], 1)] rho =
      some [([[1, 1]], 1), ([[2, 2]], 1), ([[1, 2]], 1)] ∧
    population [([[1, 1]], 1), ([[2, 2]], 1), ([[1, 2]], 1)] = 3 ∧
    genomeFrequencies [([[1, 1]], 1), ([[2, 2]], 1), ([[1, 2]], 1)] =
      some [([[1, 1]], 1 / 3), ([[2, 2]], 1 / 3), ([[1, 2]], 1 / 3)] ∧
    alleleFrequencies [([[1, 1]], 1), ([[2, 2]], 1), ([[1, 2]], 1)] 0 =
      some [(1, 1 / 2), (2, 1 / 2)] := by
  refine ⟨mate_eval_two rho hrho, by decide, ?_, ?_⟩
  · rw [genomeFrequencies_of_total_ne _ (by decide),
      (by decide : population [([[1, 1]], 1), ([[2, 2]], 1), ([[1, 2]], 1)] = 3)]
    norm_num
  · have hac : alleleCounts [([[1, 1]], 1), ([[2, 2]], 1), ([[1, 2]], 1)] 0 =
        some [(1, 3), (2, 3)] := by decide
    unfold alleleFrequencies
    rw [hac]
    norm_num
    exact fun h => absurd h (by decide)

theorem c2_two_genome_mate_witness :
    mate [([[1, 1]], 1), ([[2, 2]], 1)] (fun _ => (0, 0, fun _ => (0, 0))) =
      some [([[1, 1]], 1), ([[2, 2]], 1), ([[1, 2]], 1)] ∧
    population [([[1, 1]], 1), ([[2, 2]], 1), ([[1, 2]], 1)] = 3 ∧
    genomeFrequencies [([[1, 1]], 1), ([[2, 2]], 1), ([[1, 2]], 1)] =
      some [([[1, 1]], 1 / 3), ([[2, 2]], 1 / 3), ([[1, 2]], 1 / 3)] ∧
    alleleFrequencies [([[1, 1]], 1), ([[2, 2]], 1), ([[1, 2]], 1)] 0 =
      some [(1, 1 / 2), (2, 1 / 2)] :=
  c2_two_genome_mate (fun _ => (0, 0, fun _ => (0, 0)))
    (fun _ => ⟨le_refl 0, by norm_num, le_refl 0, by norm_num,
      fun _ => ⟨by norm_num, by norm_num⟩⟩)

/-- C3: weighted_choice on a collection of nonnegative weights with positive
total and a uniform draw 0 ≤ r < 1 returns the value at the first position
whose cumulative weight strictly exceeds x = r * total, and that position
carries a strictly positive weight, so no zero-weight value is ever drawn
while another weight is positive. -/
theorem c3_weighted_choice_first_exceeding {α : Type} (l : List (α × ℤ)) (r : ℚ)
    (h0 : 0 ≤ r) (h1 : r < 1) (hw : ∀ p ∈ l, 0 ≤ p.2) (hpos : 0 < totalWeight l) :
    ∃ (i : ℕ) (hi : i < l.length),
      weightedChoice l r = some (l[i].1) ∧
      (∀ j, j < i →
        (((cumWeights (l.map Prod.snd)).getD j 0 : ℤ) : ℚ) ≤
          r * ((totalWeight l : ℤ) : ℚ)) ∧
      r * ((totalWeight l : ℤ) : ℚ) < (((cumWeights (l.map Prod.snd)).getD i 0 : ℤ) : ℚ) ∧
      0 < l[i].2 := by
  obtain ⟨i, hi, ha, hb, hc, hd⟩ := weightedChoice_spec l r h0 h1 hw hpos
  exact ⟨i, hi, ha, hc, hd, hb⟩

theorem c3_weighted_choice_first_exceeding_witness :
    ∃ (i : ℕ) (hi : i < ([((10 : ℤ), (0 : ℤ)), (20, 1)] : List (ℤ × ℤ)).length),
      weightedChoice ([((10 : ℤ), (0 : ℤ)), (20, 1)] : List (ℤ × ℤ)) (1 / 2) =
        some (([((10 : ℤ), (0 : ℤ)), (20, 1)] : List (ℤ × ℤ))[i].1) ∧
      (∀ j, j < i →
        (((cumWeights (([((10 : ℤ), (0 : ℤ)), (20, 1)] : List (ℤ × ℤ)).map Prod.snd)).getD
          j 0 : ℤ) : ℚ) ≤
          1 / 2 * ((totalWeight ([((10 : ℤ), (0 : ℤ)), (20, 1)] : List (ℤ × ℤ)) : ℤ) : ℚ)) ∧
      1 / 2 * ((totalWeight ([((10 : ℤ), (0 : ℤ)), (20, 1)] : List (ℤ × ℤ)) : ℤ) : ℚ) <
        (((cumWeights (([((10 : ℤ), (0 : ℤ)), (20, 1)] : List (ℤ × ℤ)).map Prod.snd)).getD
          i 0 : ℤ) : ℚ) ∧
      0 < ([((10 : ℤ), (0 : ℤ)), (20, 1)] : List (ℤ × ℤ))[i].2 :=
  c3_weighted_choice_first_exceeding ([((10 : ℤ), (0 : ℤ)), (20, 1)] : List (ℤ × ℤ)) (1 / 2)
    (by norm_num) (by norm_num) (by decide) (by decide)

/-- C4: with nonnegative integer weights and a uniform draw, weighted_choice
fails exactly when the collection is empty or all its weights are zero, and
any collection holding a positive weight yields a value without error. -/
theorem c4_weighted_choice_failure {α : Type} (l : List (α × ℤ)) (r : ℚ)
    (h0 : 0 ≤ r) (h1 : r < 1) (hw : ∀ p ∈ l, 0 ≤ p.2) :
    (weightedChoice l r = none ↔ (l = [] ∨ ∀ p ∈ l, p.2 = 0)) ∧
    ((∃ p ∈ l, 0 < p.2) → ∃ v, weightedChoice l r = some v) := by
  refine ⟨weightedChoice_none_iff l r h0 h1 hw, ?_⟩
  rintro ⟨p, hp, hpz⟩
  obtain ⟨i, hi, heq, -, -, -⟩ :=
    weightedChoice_spec l r h0 h1 hw (totalWeight_pos l hw p hp hpz)
  exact ⟨_, heq⟩

theorem c4_weighted_choice_failure_witness :
    ∃ v, weightedChoice ([((3 : ℤ), (0 : ℤ)), (7, 2)] : List (ℤ × ℤ)) (1 / 3) = some v :=
  (c4_weighted_choice_failure ([((3 : ℤ), (0 : ℤ)), (7, 2)] : List (ℤ × ℤ)) (1 / 3)
    (by norm_num) (by norm_num) (by decide)).2 ⟨(7, 2), by decide, by decide⟩

/-- C5: Gene(x, y) and Gene(y, x) construct the same canonical value, hence
any hash computed from the constructed value agrees on the two. -/
theorem c5_gene_canonical (x y : ℤ) :
    mkGene [x, y] = mkGene [y, x] ∧
    ∀ hashf : Option Gene → ℤ, hashf (mkGene [x, y]) = hashf (mkGene [y, x]) := by
  refine ⟨mkGene_comm x y, fun hashf => ?_⟩
  rw [mkGene_comm x y]

/-- C6: every offspring of Gene(a1,a2).mate(Gene(a3,a4)) lies in the four-way
support Gene(a1,a3), Gene(a1,a4), Gene(a2,a3), Gene(a2,a4); each of the four
equally likely slot-choice pairs realises a member of the support and every
member of the support is realised by some slot pair; and
Gene(1,1).mate(Gene(2,2)) always returns Gene(1,2). -/
theorem c6_gene_mate_support (a1 a2 a3 a4 : ℤ) (i j : ℕ) (hi : i < 2) (hj : j < 2)
    (p1 p2 : Gene) (h1 : mkGene [a1, a2] = some p1) (h2 : mkGene [a3, a4] = some p2) :
    geneMate p1 p2 i j ∈
      [mkGene [a1, a3], mkGene [a1, a4], mkGene [a2, a3], mkGene [a2, a4]] ∧
    (∀ o ∈ [mkGene [a1, a3], mkGene [a1, a4], mkGene [a2, a3], mkGene [a2, a4]],
      ∃ i2 j2, i2 < 2 ∧ j2 < 2 ∧ geneMate p1 p2 i2 j2 = o) ∧
    (∀ i2 j2 : ℕ, i2 < 2 → j2 < 2 → ∀ q1 q2 : Gene,
      mkGene [(1 : ℤ), 1] = some q1 → mkGene [(2 : ℤ), 2] = some q2 →
      geneMate q1 q2 i2 j2 = some [1, 2]) := by
  have hp1ins : p1 = List.insertionSort (fun a b => a ≤ b) [a1, a2] := by
    have h := h1
    unfold mkGene at h
    rw [if_neg (by simp : ¬ ([a1, a2] : List ℤ) = [])] at h
    injection h with h
    exact h.symm
  have hp2ins : p2 = List.insertionSort (fun a b => a ≤ b) [a3, a4] := by
    have h := h2
    unfold mkGene at h
    rw [if_neg (by simp : ¬ ([a3, a4] : List ℤ) = [])] at h
    injection h with h
    exact h.symm
  have hp1perm : p1.Perm [a1, a2] := by
    rw [hp1ins]
    exact List.perm_insertionSort _ _
  have hp2perm : p2.Perm [a3, a4] := by
    rw [hp2ins]
    exact List.perm_insertionSort _ _
  have hp1len : p1.length = 2 := by
    rw [hp1perm.length_eq]
    rfl
  have hp2len : p2.length = 2 := by
    rw [hp2perm.length_eq]
    rfl
  refine ⟨?_, ?_, ?_⟩
  · rw [geneMate_eval p1 p2 i j (by omega) (by omega)]
    have hu : p1[i] ∈ [a1, a2] := hp1perm.mem_iff.mp (List.getElem_mem (by omega))
    have hv : p2[j] ∈ [a3, a4] := hp2perm.mem_iff.mp (List.getElem_mem (by omega))
    rcases List.mem_pair.mp hu with h3 | h3 <;> rcases List.mem_pair.mp hv with h4 | h4 <;>
      rw [h3, h4] <;> simp [mkGene_pair]
  · have hatt : ∀ u v : ℤ, u ∈ [a1, a2] → v ∈ [a3, a4] →
        ∃ i2 j2, i2 < 2 ∧ j2 < 2 ∧ geneMate p1 p2 i2 j2 = mkGene [u, v] := by
      intro u v hu hv
      obtain ⟨n, hn, hnu⟩ := List.getElem_of_mem (hp1perm.mem_iff.mpr hu)
      obtain ⟨m, hm, hmv⟩ := List.getElem_of_mem (hp2perm.mem_iff.mpr hv)
      refine ⟨n, m, by omega, by omega, ?_⟩
      rw [geneMate_eval p1 p2 n m hn hm, hnu, hmv, mkGene_pair]
    intro o ho
    simp only [List.mem_cons, List.not_mem_nil, or_false] at ho
    rcases ho with rfl | rfl | rfl | rfl
    · exact hatt a1 a3 (by simp) (by simp)
    · exact hatt a1 a4 (by simp) (by simp)
    · exact hatt a2 a3 (by simp) (by simp)
    · exact hatt a2 a4 (by simp) (by simp)
  · intro i2 j2 hi2 hj2 q1 q2 hq1 hq2
    have hq1e : q1 = [1, 1] := by
      rw [(by decide : mkGene [(1 : ℤ), 1] = some [1, 1])] at hq1
      injection hq1 with h
      exact h.symm
    have hq2e : q2 = [2, 2] := by
      rw [(by decide : mkGene [(2 : ℤ), 2] = some [2, 2])] at hq2
      injection hq2 with h
      exact h.symm
    subst hq1e
    subst hq2e
    interval_cases i2 <;> interval_cases j2 <;> decide

theorem c6_gene_mate_support_witness :
    geneMate [1, 2] [3, 4] 0 1 ∈
      [mkGene [(1 : ℤ), 3], mkGene [1, 4], mkGene [2, 3], mkGene [2, 4]] ∧
    (∀ o ∈ [mkGene [(1 : ℤ), 3], mkGene [1, 4], mkGene [2, 3], mkGene [2, 4]],
      ∃ i2 j2, i2 < 2 ∧ j2 < 2 ∧ geneMate [1, 2] [3, 4] i2 j2 = o) ∧
    (∀ i2 j2 : ℕ, i2 < 2 → j2 < 2 → ∀ q1 q2 : Gene,
      mkGene [(1 : ℤ), 1] = some q1 → mkGene [(2 : ℤ), 2] = some q2 →
      geneMate q1 q2 i2 j2 = some [1, 2]) :=
  c6_gene_mate_support 1 2 3 4 0 1 (by norm_num) (by norm_num) [1, 2] [3, 4]
    (by decide) (by decide)

/-- C7: Genome.mate fails (the LocusMismatch failure) exactly when the locus
counts differ; with equal locus counts it returns a genome of the same length
whose gene at each locus k is a mate of the parents' genes at locus k, each
locus drawing its own slot pair sl k. -/
theorem c7_genome_mate (g1 g2 : Genome) (sl : ℕ → ℕ × ℕ)
    (hsl : ∀ cl, (sl cl).1 < 2 ∧ (sl cl).2 < 2)
    (hwf1 : genomeWF g1) (hwf2 : genomeWF g2) :
    (g1.length ≠ g2.length → genomeMate g1 g2 sl = none) ∧
    (g1.length = g2.length → ∃ off, genomeMate g1 g2 sl = some off ∧
      off.length = g1.length ∧
      ∀ k, k < off.length →
        off[k]? = geneMate (g1.getD k []) (g2.getD k []) (sl k).1 (sl k).2) := by
  refine ⟨genomeMate_mismatch g1 g2 sl, fun hlen => ?_⟩
  obtain ⟨off, ha, hb, -, hd⟩ := genomeMate_spec g1 g2 sl hsl hwf1 hwf2 hlen
  exact ⟨off, ha, hb, hd⟩

theorem c7_genome_mate_witness :
    ∃ off, genomeMate [[1, 2], [3, 3]] [[4, 5], [6, 7]] (fun _ => (0, 1)) = some off ∧
      off.length = ([[1, 2], [3, 3]] : Genome).length ∧
      ∀ k, k < off.length →
        off[k]? = geneMate (([[1, 2], [3, 3]] : Genome).getD k [])
          (([[4, 5], [6, 7]] : Genome).getD k []) ((0, 1) : ℕ × ℕ).1 ((0, 1) : ℕ × ℕ).2 :=
  (c7_genome_mate [[1, 2], [3, 3]] [[4, 5], [6, 7]] (fun _ => (0, 1))
    (fun _ => ⟨by norm_num, by norm_num⟩) (by decide) (by decide)).2 rfl

/-- C8 counterexample: Species construction succeeds on a mapping holding a
negative count and two genomes with different locus counts, where the claim
demands failure with InvalidPopulation; the constructor checks neither. -/
theorem c8_counterexample :
    mkSpecies [([[1, 1]], -1), ([[1, 2], [3, 4]], 2)] =
      some [([[1, 1]], -1), ([[1, 2], [3, 4]], 2)] := rfl

/-- C8 amended: Species construction only checks that the keys are Genomes
(which the embedding carries in the type of the mapping); it accepts every
such mapping, negative counts and inconsistent locus counts included, storing
the entries unchanged, the total population being the sum of the counts. -/
theorem c8_construction_total (d : List (Genome × ℤ)) :
    ∃ s, mkSpecies d = some s ∧ population s = (d.map Prod.snd).sum :=
  ⟨d, rfl, rfl⟩

/-- C9 counterexample: on the empty Population both genome_frequencies and
allele_frequencies return an empty mapping instead of failing, and a genome
with count zero is included in genome_frequencies at frequency 0 instead of
being omitted. -/
theorem c9_counterexample :
    genomeFrequencies [] = some [] ∧
    alleleFrequencies [] 0 = some [] ∧
    genomeFrequencies [([[1, 1]], 0), ([[2, 2]], 2)] =
      some [([[1, 1]], 0), ([[2, 2]], 1)] := by
  refine ⟨rfl, rfl, ?_⟩
  rw [genomeFrequencies_of_total_ne _ (by decide),
    (by decide : population [([[1, 1]], 0), ([[2, 2]], 2)] = 2)]
  norm_num

/-- C9 amended: genome_frequencies maps every genome of the dict (zero counts
included) to count / total whenever the total is nonzero; it fails exactly
when the dict is nonempty with total zero; and the empty Population yields
empty mappings from both genome_frequencies and allele_frequencies without
failing. -/
theorem c9_frequencies (s : Species) (locus : ℕ) :
    (genomeFrequencies s = none ↔ (s ≠ [] ∧ population s = 0)) ∧
    (∀ m, genomeFrequencies s = some m → m.map Prod.fst = s.map Prod.fst) ∧
    (population s ≠ 0 → genomeFrequencies s =
      some (s.map (fun p => (p.1, (p.2 : ℚ) / ((population s : ℤ) : ℚ))))) ∧
    alleleFrequencies [] locus = some [] :=
  ⟨genomeFrequencies_none_iff s, genomeFrequencies_keys s,
    genomeFrequencies_of_total_ne s, alleleFrequencies_nil locus⟩

theorem c9_frequencies_witness :
    genomeFrequencies [([[1, 1]], 0)] = none :=
  (c9_frequencies [([[1, 1]], 0)] 0).1.mpr ⟨by decide, by decide⟩

/-- C10: the Gene constructor does not enforce the documented two-allele
arity: for every nonempty list of k integers the construction succeeds and
returns the sorted permutation of all the supplied alleles, of the same
length k, while only the empty argument list makes construction fail. -/
theorem c10_gene_arity (alleles : List ℤ) :
    (alleles = [] → mkGene alleles = none) ∧
    (alleles ≠ [] → ∃ g, mkGene alleles = some g ∧ g.Perm alleles ∧
      List.Sorted (fun a b => a ≤ b) g ∧ g.length = alleles.length) := by
  constructor
  · intro h
    unfold mkGene
    rw [if_pos h]
  · intro h
    refine ⟨alleles.insertionSort (fun a b => a ≤ b), ?_, List.perm_insertionSort _ _,
      List.sorted_insertionSort _ _, (List.perm_insertionSort _ _).length_eq⟩
    unfold mkGene
    rw [if_neg h]

theorem c10_gene_arity_witness :
    ∃ g, mkGene [3, 1, 2] = some g ∧ g.Perm [3, 1, 2] ∧
      List.Sorted (fun a b => a ≤ b) g ∧ g.length = ([3, 1, 2] : List ℤ).length :=
  (c10_gene_arity [3, 1, 2]).2 (by decide)

end RandomMating
